import Mathlib

/-!
# My_SHELL: the tokenizer, the redirection scan, the pipeline builder and the pipe wiring

A shallow embedding of `src/main.c`.  A C string is modelled by the list of the characters
stored in its buffer, one `Char` for one byte; reading stops at the first NUL (`cstr`).
Descriptors are natural numbers and a descriptor table is explicit; `open` and `pipe` hand
out the lowest free descriptor and `fork` copies the table.  The calls `malloc`, `realloc`,
`strdup`, `pipe` and `fork` are taken to succeed (the code leaves by `exit(1)` when `pipe` or
`fork` fails); the counters `i`, `len`, `cap` and `argc` are natural numbers, which is what
they are for lines shorter than `2^30` characters.
-/

namespace MyShell

/-! ## Characters and C strings -/

/-- The type of a C string buffer's contents. -/
abbrev Str := List Char

/-- The terminating character of a C string. -/
def NUL : Char := Char.ofNat 0

/-- The string a `char *` denotes: the characters of the buffer before the first NUL. -/
def cstr (s : Str) : Str := s.takeWhile (fun c => c != NUL)

/-- The function `isspace` of `<ctype.h>` in the C locale: space, `\t`, `\n`, `\v`, `\f`, `\r`. -/
def isspace (c : Char) : Bool :=
  c == ' ' || c == '\t' || c == '\n' || c == Char.ofNat 11 || c == Char.ofNat 12 || c == '\r'

/-! ## `parse_input` (main.c, lines 36-108) -/

/-- The local state of `parse_input`: the vector `argv` built so far, the contents
`tok[0..len)` of the token buffer, its capacity `cap`, the two quote flags, and the log of the
stores made into `tok`, each as the pair (index written, capacity at that moment).  The
contents are the characters stored, whatever the capacity; whether a store is inside the
buffer is read from the log. -/
structure PState where
  argv : List Str
  tok : Str
  cap : Nat
  in_quote : Bool
  double_quote : Bool
  stores : List (Nat × Nat)

/-- The state before the loop: `cap = 64`, `len = 0`, and the store `tok[0] = 0`. -/
def PState.init : PState :=
  { argv := [], tok := [], cap := 64, in_quote := false, double_quote := false,
    stores := [(0, 64)] }

/-- The three statements that append a character (lines 77-79, 83-85, 89-91, 96-102):
`if (len + 1 > cap) cap *= 2;  tok[len++] = c;  tok[len] = 0;`. -/
def put (st : PState) (c : Char) : PState :=
  let cap := if st.tok.length + 1 > st.cap then st.cap * 2 else st.cap
  { st with
    cap := cap
    tok := st.tok ++ [c]
    stores := st.stores ++ [(st.tok.length, cap), (st.tok.length + 1, cap)] }

/-- Lines 53-57: `if (len > 0) { tok[len] = 0; push_arg(tok); len = 0; }`. -/
def flush (st : PState) : PState :=
  if st.tok.length > 0 then
    { st with
      argv := st.argv ++ [st.tok]
      tok := []
      stores := st.stores ++ [(st.tok.length, st.cap)] }
  else st

/-- The `for (i = 0;; i++)` loop of `parse_input`, on the characters from index `i` on.
The empty list is the position of the terminating NUL. -/
def parse_loop : Str → PState → PState
  | [], st => flush st
  | c :: rest, st =>
    if !st.in_quote && !st.double_quote && isspace c then
      parse_loop rest (flush st)
    else if c == '\'' && !st.double_quote then
      parse_loop rest { st with in_quote := !st.in_quote }
    else if c == '"' && !st.in_quote then
      parse_loop rest { st with double_quote := !st.double_quote }
    else if c == '\\' && !st.in_quote then
      match rest with
      | [] => st
      | next :: rest2 =>
        if st.double_quote then
          if next == '"' || next == '\\' || next == '$' then
            parse_loop rest2 (put st next)
          else
            parse_loop (next :: rest2) (put st '\\')
        else
          parse_loop rest2 (put st (if next == 'n' then 'n' else next))
    else
      parse_loop rest (put st c)

/-- The vector returned by `parse_input(s, &argc)`; `argc` is its length and the C result is
`NULL` exactly when it is empty. -/
def parse_input (s : Str) : List Str := (parse_loop (cstr s) PState.init).argv

/-- The stores `parse_input` makes into its token buffer, in order. -/
def parse_input_stores (s : Str) : List (Nat × Nat) := (parse_loop (cstr s) PState.init).stores

/-- The tokens of a vector joined with single spaces. -/
def join_spaces : List Str → Str
  | [] => []
  | [t] => t
  | t :: t2 :: ts => t ++ ' ' :: join_spaces (t2 :: ts)

/-- A character that is neither white space, nor a quote, nor a backslash. -/
def plain (c : Char) : Bool :=
  !isspace c && c != '\'' && c != '"' && c != '\\'

/-- The quotes of a line are balanced: at the end of the line the tokenizer is in neither
quote mode. -/
def quotes_balanced (s : Str) : Bool :=
  !(parse_loop (cstr s) PState.init).in_quote && !(parse_loop (cstr s) PState.init).double_quote

/-! ## Descriptors -/

/-- What an open descriptor refers to. -/
inductive Res where
  /-- A stream the interpreter was started with (`0`, `1`, `2`). -/
  | inherited (fd : Nat)
  /-- A file opened for writing by the redirection scan; `append` is `O_APPEND`, otherwise
  `O_TRUNC`. -/
  | file (path : Str) (append : Bool)
  /-- The read end of the pipe created in iteration `k` of `execute_pipe_cmds`. -/
  | pipeRead (k : Nat)
  /-- The write end of the pipe created in iteration `k` of `execute_pipe_cmds`. -/
  | pipeWrite (k : Nat)
  deriving DecidableEq, Repr

/-- The descriptor table of a process: entry `fd` is what descriptor `fd` refers to, `none`
when it is closed. -/
abbrev FdTable := List (Option Res)

/-- The entry of a descriptor. -/
def fd_get (t : FdTable) (fd : Nat) : Option Res := t.getD fd none

/-- The table with the entry of `fd` replaced. -/
def fd_set : FdTable → Nat → Option Res → FdTable
  | [], 0, r => [r]
  | [], n + 1, r => none :: fd_set [] n r
  | _ :: t, 0, r => r :: t
  | x :: t, n + 1, r => x :: fd_set t n r

/-- The lowest descriptor that is not open: the one `open` and `pipe` hand out. -/
def lowest_free : FdTable → Nat
  | [] => 0
  | none :: _ => 0
  | some _ :: t => lowest_free t + 1

/-- The descriptors that are open. -/
def open_fds (t : FdTable) : List Nat :=
  (List.range t.length).filter (fun fd => (fd_get t fd).isSome)

/-- The table of the interpreter at start: standard input, output and error. -/
def std_table : FdTable := [some (Res.inherited 0), some (Res.inherited 1), some (Res.inherited 2)]

/-- The call `close(fd)` for a descriptor held in an `int`: a negative or closed descriptor
is left alone (`EBADF`). -/
def sys_close (t : FdTable) (fd : Int) : FdTable :=
  if 0 ≤ fd ∧ (fd_get t fd.toNat).isSome then fd_set t fd.toNat none else t

/-! ## The main loop (main.c, lines 379-641) -/

/-- The system calls of one iteration of the main loop that the claims are about. -/
inductive Event where
  /-- The call `open(path, O_CREAT | O_WRONLY | (append ? O_APPEND : O_TRUNC), 0644)` and its
  result. -/
  | open_ (path : Str) (append : Bool) (result : Int)
  /-- The call `close(fd)`. -/
  | close (fd : Int)
  /-- Bytes sent to a descriptor by `write`, `dprintf`, `printf` (descriptor 1; `stdout` is
  unbuffered) or `fprintf(stderr, ...)` (descriptor 2). -/
  | write (fd : Int) (bytes : Str)
  /-- The call `perror(msg)`. -/
  | perror (msg : Str)
  deriving DecidableEq, Repr

/-- The environment of the interpreter: which paths `open` can open for writing. -/
structure Env where
  can_open : Str → Bool

/-- The call `open` of the redirection scan: the lowest free descriptor, or `-1`. -/
def sys_open (env : Env) (t : FdTable) (path : Str) (append : Bool) : Int × FdTable :=
  if env.can_open path then
    ((lowest_free t : Nat), fd_set t (lowest_free t) (some (Res.file path append)))
  else (-1, t)

/-- The locals of `main` that the redirection scan sets, with the descriptor table and the
calls made so far. -/
structure Scan where
  redirect_output : Bool
  redirect_error : Bool
  fd_output : Int
  fd_error : Int
  piping : Bool
  fds : FdTable
  events : List Event

/-- Lines 393-397: the locals before the scan. -/
def Scan.init (t : FdTable) : Scan :=
  { redirect_output := false, redirect_error := false, fd_output := -1, fd_error := -1,
    piping := false, fds := t, events := [] }

/-- The test of line 410: the token is `1>`, `>`, `>>` or `1>>`. -/
def is_out_op (t : Str) : Bool :=
  t == "1>".toList || t == ">".toList || t == ">>".toList || t == "1>>".toList

/-- The test of line 430: the token is `2>` or `2>>`. -/
def is_err_op (t : Str) : Bool := t == "2>".toList || t == "2>>".toList

/-- Lines 410-428, for the token `t = argv_gen[i]` followed by the tokens `rest`.  The
boolean is `true` when the loop is left by `break`. -/
def scan_output (env : Env) (t : Str) (rest : List Str) (sc : Scan) : Bool × Scan :=
  if is_out_op t then
    match rest with
    | [] =>
      (true, { sc with
        redirect_output := false
        events := sc.events ++
          [Event.write 2 "syntax error: expected filename after >\n".toList] })
    | f :: _ =>
      let app := t == ">>".toList || t == "1>>".toList
      let r := sys_open env sc.fds f app
      let sc1 := { sc with
        redirect_output := true, fd_output := r.1, fds := r.2,
        events := sc.events ++ [Event.open_ f app r.1] }
      if r.1 == -1 then
        (false, { sc1 with
          redirect_output := false, events := sc1.events ++ [Event.perror "open".toList] })
      else (false, sc1)
  else (false, sc)

/-- Lines 430-447, for the token `t = argv_gen[i]` followed by the tokens `rest`. -/
def scan_error (env : Env) (t : Str) (rest : List Str) (sc : Scan) : Bool × Scan :=
  if is_err_op t then
    match rest with
    | [] =>
      (true, { sc with
        redirect_error := false
        events := sc.events ++
          [Event.write 2 "syntax error: expected filename after 2>\n".toList] })
    | f :: _ =>
      let app := t == "2>>".toList
      let r := sys_open env sc.fds f app
      let sc1 := { sc with
        redirect_error := true, fd_error := r.1, fds := r.2,
        events := sc.events ++ [Event.open_ f app r.1] }
      if r.1 == -1 then
        (false, { sc1 with
          redirect_error := false, events := sc1.events ++ [Event.perror "open".toList] })
      else (false, sc1)
  else (false, sc)

/-- The loop of lines 409-452 on the tokens `argv_gen[i..]`. -/
def scan_loop (env : Env) : List Str → Scan → Scan
  | [], sc => sc
  | t :: rest, sc =>
    let r1 := scan_output env t rest sc
    if r1.1 then r1.2
    else
      let r2 := scan_error env t rest r1.2
      if r2.1 then r2.2
      else scan_loop env rest (if t == "|".toList then { r2.2 with piping := true } else r2.2)

/-- The redirection scan of one line: the loop run from the initial locals. -/
def redirect_scan (env : Env) (t : FdTable) (argv_gen : List Str) : Scan :=
  scan_loop env argv_gen (Scan.init t)

/-! ## `trim_spaces`, `strtok` and `build_pipeline_from_buffer` (main.c, lines 189-249) -/

/-- The function `trim_spaces`: leading white space is skipped; when something is left, the
white space at its end is cut, never going back past its first character. -/
def trim_spaces (s : Str) : Str :=
  match s.dropWhile isspace with
  | [] => []
  | c :: rest => c :: (rest.reverse.dropWhile isspace).reverse

/-- One call of `strtok(..., "|")` on the saved position `save`: leading `|` are skipped; at
the end of the string the result is `NULL` (`none`); otherwise the token runs to the next `|`
or to the end, and the new saved position is just after that `|`. -/
def strtok (save : Str) : Option (Str × Str) :=
  match save.dropWhile (fun c => c == '|') with
  | [] => none
  | c :: rest =>
    some ((c :: rest).takeWhile (fun d => d != '|'),
      ((c :: rest).dropWhile (fun d => d != '|')).drop 1)

/-- The `while (token != NULL)` loop of `build_pipeline_from_buffer`: `tok` is the result of
the last call of `strtok` (the token and the saved position), `cmds` the stages stored so
far.  The first argument bounds the number of iterations; `none` when it is used up. -/
def pipeline_loop : Nat → Option (Str × Str) → List (List Str) → Option (List (List Str))
  | 0, _, _ => none
  | _ + 1, none, cmds => some cmds
  | fuel + 1, some (token, save), cmds =>
    if trim_spaces token = [] then some cmds
    else if parse_input (trim_spaces token) = [] then some cmds
    else if cmds.length = 4 then some cmds
    else pipeline_loop fuel (strtok save) (cmds ++ [parse_input (trim_spaces token)])

/-- The stages `build_pipeline_from_buffer(buffer, &n)` returns; `n` is their number. -/
def build_pipeline_from_buffer (buffer : Str) : Option (List (List Str)) :=
  pipeline_loop ((cstr buffer).length + 1) (strtok (cstr buffer)) []

/-- The segments of a line split at every `|` character. -/
def split_at_pipes : Str → List Str
  | [] => [[]]
  | c :: cs =>
    if c == '|' then [] :: split_at_pipes cs
    else
      match split_at_pipes cs with
      | [] => [[c]]
      | seg :: segs => (c :: seg) :: segs

/-- A segment that continues the pipeline: it is not empty after trimming and `parse_input`
returns tokens for it. -/
def stage_ok (seg : Str) : Bool :=
  !(trim_spaces seg).isEmpty && !(parse_input (trim_spaces seg)).isEmpty

/-- The pipeline in the words of C8: the segments between all `|` characters, up to the first
one that is empty after trimming or has no tokens, each trimmed and tokenized, the first 4. -/
def pipeline_as_claimed (line : Str) : List (List Str) :=
  (((split_at_pipes (cstr line)).takeWhile stage_ok).map
    (fun seg => parse_input (trim_spaces seg))).take 4

/-- The pipeline in the words of C8 as amended: as `pipeline_as_claimed`, on the non-empty
segments only. -/
def pipeline_of_segments (line : Str) : List (List Str) :=
  (((((split_at_pipes (cstr line)).filter (fun seg => !seg.isEmpty))).takeWhile stage_ok).map
    (fun seg => parse_input (trim_spaces seg))).take 4

/-! ## `is_builtin` and `execute_pipe_cmds` (main.c, lines 251-364) -/

/-- The function `is_builtin`: `cmd` is `echo`, `pwd`, `type`, `cd` or `exit`. -/
def is_builtin (cmd : Str) : Bool :=
  cmd == "echo".toList || cmd == "pwd".toList || cmd == "type".toList ||
    cmd == "cd".toList || cmd == "exit".toList

/-- The call `pipe(pipefd)` in iteration `k`: the two lowest free descriptors become the read
end and the write end. -/
def sys_pipe (k : Nat) (t : FdTable) : (Nat × Nat) × FdTable :=
  let r := lowest_free t
  let t1 := fd_set t r (some (Res.pipeRead k))
  let w := lowest_free t1
  ((r, w), fd_set t1 w (some (Res.pipeWrite k)))

/-- The call `dup2(oldfd, newfd)`: it fails (`none`) when `oldfd` is not open. -/
def sys_dup2 (t : FdTable) (oldfd newfd : Nat) : Option FdTable :=
  match fd_get t oldfd with
  | none => none
  | some r => some (fd_set t newfd (some r))

/-- The statement `if (prev_fd != -1) close(prev_fd);` of lines 340 and 353. -/
def close_prev (t : FdTable) (prev_fd : Option Nat) : FdTable :=
  match prev_fd with
  | some q => fd_set t q none
  | none => t

/-- Lines 325-341, run by the child of stage `i` on its copy of the table; `prev_fd` is
`none` for `-1`, `more` is the test `i < n_cmds - 1`.  The result is the table with which
the stage's program starts, `none` when a `dup2` failed and the child left by `exit(1)`. -/
def child_setup (t : FdTable) (prev_fd : Option Nat) (more : Bool) (pipefd : Nat × Nat) :
    Option FdTable :=
  let s1 := match prev_fd with
    | some p => sys_dup2 t p 0
    | none => some t
  let s2 := s1.bind (fun t1 =>
    if more then sys_dup2 (fd_set t1 pipefd.1 none) pipefd.2 1 else some t1)
  s2.map (fun t2 =>
    let t3 := close_prev t2 prev_fd
    if more then fd_set t3 pipefd.2 none else t3)

/-- The child of one stage. -/
structure Child where
  stage : Nat
  argv : List Str
  builtin : Bool
  fds : Option FdTable

/-- The first loop of `execute_pipe_cmds`, from iteration `i` on the stages `cmds[i..]`:
`t` is the table of the interpreter, `prev_fd` is `none` for `-1`, `cs` are the children
forked so far.  The child gets a copy of the table as it is after `pipe`; `pipefd` is only
read when `i < n_cmds - 1`. -/
def exec_loop (n_cmds : Nat) : List (List Str) → Nat → Option Nat → FdTable → List Child →
    FdTable × List Child
  | [], _, _, t, cs => (t, cs)
  | argv :: rest, i, prev_fd, t, cs =>
    let more := decide (i + 1 < n_cmds)
    let p := if more then sys_pipe i t else ((0, 0), t)
    let child : Child :=
      { stage := i, argv := argv, builtin := is_builtin (argv.headD []),
        fds := child_setup p.2 prev_fd more p.1 }
    let t1 := close_prev p.2 prev_fd
    if more then exec_loop n_cmds rest (i + 1) (some p.1.1) (fd_set t1 p.1.2 none) (cs ++ [child])
    else exec_loop n_cmds rest (i + 1) prev_fd t1 (cs ++ [child])

/-- The function `execute_pipe_cmds(cmds, n_cmds)` run with the table `t`: the table of the
interpreter afterwards and the children, in stage order. -/
def execute_pipe_cmds (t : FdTable) (cmds : List (List Str)) : FdTable × List Child :=
  exec_loop cmds.length cmds 0 none t []

/-! ## The dispatch chain and the echo branch (main.c, lines 454-641) -/

/-- The test `strncmp(buff, name, strlen(name)) == 0`: the first `strlen(name)` characters of
`buff` are those of `name`. -/
def strncmp_eq (buff name : Str) : Bool := buff.take name.length == name

/-- The branch of the main loop a line is handled by. -/
inductive Route where
  /-- No token: `continue` at line 406. -/
  | blank
  /-- The pipeline path, lines 454-463. -/
  | pipeline
  | exit
  | echo
  | type
  | pwd
  | cd
  /-- The last `else`: the first token is looked up on the search path. -/
  | external
  deriving DecidableEq, Repr

/-- The `if / else if` chain of lines 465-577 on the line buffer. -/
def dispatch (buff : Str) : Route :=
  if strncmp_eq buff "exit".toList then Route.exit
  else if strncmp_eq buff "echo".toList then Route.echo
  else if strncmp_eq buff "type".toList then Route.type
  else if strncmp_eq buff "pwd".toList then Route.pwd
  else if strncmp_eq buff "cd".toList then Route.cd
  else Route.external

/-- The loop of lines 480-499 on the words `cargv[i..]`: the writes it makes. -/
def echo_loop (sc : Scan) : List Str → List Event
  | [] => []
  | w :: rest =>
    if sc.redirect_output == false then
      if w == "2>".toList || w == "2>>".toList then []
      else Event.write 1 (w ++ [' ']) :: echo_loop sc rest
    else
      if w != ">".toList && w != "1>".toList && w != ">>".toList && w != "1>>".toList then
        Event.write sc.fd_output w ::
          ((match rest with
            | [] => []
            | w2 :: _ =>
              if w2 != ">".toList && w2 != "1>".toList && w != ">>".toList &&
                  w != "1>>".toList then
                [Event.write sc.fd_output [' ']]
              else []) ++ echo_loop sc rest)
      else []

/-- The echo branch, lines 473-505: the words are the tokens of the buffer after its first
four characters; nothing at all is written when there is no word. -/
def echo_branch (sc : Scan) (buff : Str) : List Event :=
  match parse_input (buff.drop 4) with
  | [] => []
  | cargv =>
    echo_loop sc cargv ++
      [if sc.redirect_output == false then Event.write 1 ['\n']
       else Event.write sc.fd_output ['\n']]

/-- Lines 459-460, 467-468 and 638-639: `if (fd_output != -1) close(fd_output);
if (fd_error != -1) close(fd_error);`. -/
def close_redirections (sc : Scan) : Scan :=
  let sc1 := if sc.fd_output != -1 then
      { sc with fds := sys_close sc.fds sc.fd_output,
                events := sc.events ++ [Event.close sc.fd_output] }
    else sc
  if sc1.fd_error != -1 then
    { sc1 with fds := sys_close sc1.fds sc1.fd_error,
               events := sc1.events ++ [Event.close sc1.fd_error] }
  else sc1

/-- What one iteration of the main loop leaves: the branch taken, the descriptor table of
the interpreter, the calls made, and the children of a pipeline. -/
structure LineResult where
  route : Route
  fds : FdTable
  events : List Event
  children : List Child

/-- One iteration of the main loop on the line `readline` returned, from the descriptor
table `t`.  The line is copied into `buff[100]` (at most 99 characters).  Of the branches
`type`, `pwd`, `cd` and the external command only the route is kept: they write, change
directory or fork, and open and close no descriptor of the interpreter. -/
def run_line (env : Env) (t : FdTable) (line : Str) : LineResult :=
  let buff := (cstr line).take 99
  let argv_gen := parse_input buff
  if argv_gen = [] then { route := Route.blank, fds := t, events := [], children := [] }
  else
    let sc := redirect_scan env t argv_gen
    if sc.piping then
      let run := match build_pipeline_from_buffer buff with
        | some cmds => execute_pipe_cmds sc.fds cmds
        | none => (sc.fds, [])
      let sc1 := close_redirections { sc with fds := run.1 }
      { route := Route.pipeline, fds := sc1.fds, events := sc1.events, children := run.2 }
    else
      match dispatch buff with
      | Route.echo =>
        let sc1 := close_redirections { sc with events := sc.events ++ echo_branch sc buff }
        { route := Route.echo, fds := sc1.fds, events := sc1.events, children := [] }
      | r =>
        let sc1 := close_redirections sc
        { route := r, fds := sc1.fds, events := sc1.events, children := [] }

/-- The bytes a list of calls sends to a descriptor, in order. -/
def written (fd : Int) : List Event → Str
  | [] => []
  | Event.write fd2 bytes :: rest => if fd2 = fd then bytes ++ written fd rest else written fd rest
  | _ :: rest => written fd rest

/-- An environment in which every `open` succeeds. -/
def Env.permissive : Env := { can_open := fun _ => true }

/-- The test of lines 586-591: the token is one of the six redirection operators. -/
def is_redir_op (t : Str) : Bool := is_out_op t || is_err_op t

/-- The event is a call of `open`. -/
def Event.is_open : Event → Bool
  | Event.open_ _ _ _ => true
  | _ => false

/-! # Theorems -/

/-! ## Facts about the tokenizer -/

@[simp] theorem put_tok (st : PState) (c : Char) : (put st c).tok = st.tok ++ [c] := rfl
@[simp] theorem put_argv (st : PState) (c : Char) : (put st c).argv = st.argv := rfl
@[simp] theorem put_in_quote (st : PState) (c : Char) : (put st c).in_quote = st.in_quote := rfl
@[simp] theorem put_double_quote (st : PState) (c : Char) :
    (put st c).double_quote = st.double_quote := rfl

@[simp] theorem foldl_put_tok (u : Str) (st : PState) : (u.foldl put st).tok = st.tok ++ u := by
  induction u generalizing st with
  | nil => simp
  | cons c u ih => simp [ih]

@[simp] theorem foldl_put_argv (u : Str) (st : PState) : (u.foldl put st).argv = st.argv := by
  induction u generalizing st with
  | nil => simp
  | cons c u ih => simp [ih]

@[simp] theorem foldl_put_in_quote (u : Str) (st : PState) :
    (u.foldl put st).in_quote = st.in_quote := by
  induction u generalizing st with
  | nil => simp
  | cons c u ih => simp [ih]

@[simp] theorem foldl_put_double_quote (u : Str) (st : PState) :
    (u.foldl put st).double_quote = st.double_quote := by
  induction u generalizing st with
  | nil => simp
  | cons c u ih => simp [ih]

theorem flush_argv_of_ne (st : PState) (h : st.tok ≠ []) :
    (flush st).argv = st.argv ++ [st.tok] := by
  have : 0 < st.tok.length := List.length_pos.mpr h
  simp [flush, this]

theorem flush_of_empty (st : PState) (h : st.tok = []) : flush st = st := by
  simp [flush, h]

@[simp] theorem flush_tok (st : PState) : (flush st).tok = [] := by
  unfold flush
  split
  · rfl
  · rename_i h
    simpa using h

@[simp] theorem flush_in_quote (st : PState) : (flush st).in_quote = st.in_quote := by
  unfold flush; split <;> rfl

@[simp] theorem flush_double_quote (st : PState) :
    (flush st).double_quote = st.double_quote := by
  unfold flush; split <;> rfl

/-- One iteration on a character that is stored as it is. -/
theorem parse_loop_cons_literal (c : Char) (rest : Str) (st : PState)
    (h1 : (!st.in_quote && !st.double_quote && isspace c) = false)
    (h2 : (c == '\'' && !st.double_quote) = false)
    (h3 : (c == '"' && !st.in_quote) = false)
    (h4 : (c == '\\' && !st.in_quote) = false) :
    parse_loop (c :: rest) st = parse_loop rest (put st c) := by
  rw [parse_loop.eq_def]
  simp only [h1, h2, h3, h4, Bool.false_eq_true, if_false]

/-- Inside double quotes every character other than `"` and the backslash is stored as it is. -/
theorem parse_loop_dq_literal (u rest : Str) (st : PState)
    (hq : st.in_quote = false) (hd : st.double_quote = true)
    (hu : ∀ c ∈ u, c ≠ '"' ∧ c ≠ '\\') :
    parse_loop (u ++ rest) st = parse_loop rest (u.foldl put st) := by
  induction u generalizing st with
  | nil => rfl
  | cons c u ih =>
    have hc := hu c (List.mem_cons_self _ _)
    have hu2 : ∀ c ∈ u, c ≠ '"' ∧ c ≠ '\\' := fun d hd => hu d (List.mem_cons_of_mem _ hd)
    rw [List.cons_append, parse_loop_cons_literal c _ st (by simp [hd]) (by simp [hd])
      (by simp [hc.1]) (by simp [hc.2]), List.foldl_cons]
    exact ih (put st c) (by simp [hq]) (by simp [hd]) hu2

theorem cstr_eq_self (s : Str) (h : ∀ c ∈ s, c ≠ NUL) : cstr s = s := by
  unfold cstr
  rw [List.takeWhile_eq_self_iff]
  intro c hc
  simpa using h c hc

theorem cstr_forall (s : Str) : ∀ c ∈ cstr s, c ≠ NUL := by
  intro c hc
  have := List.mem_takeWhile_imp hc
  simpa using this

/-- The value stored for the character after an unquoted backslash is that character. -/
theorem escaped_char (next : Char) : (if next == 'n' then 'n' else next) = next := by
  by_cases h : next = 'n' <;> simp [h]

/-- The two ways a backslash inside double quotes is handled, followed by the literal rest. -/
theorem parse_loop_dq_escape (x : Char) (rest : Str) (st : PState)
    (hq : st.in_quote = false) (hd : st.double_quote = true) :
    parse_loop ('\\' :: x :: rest) st =
      if x = '"' ∨ x = '\\' ∨ x = '$' then parse_loop rest (put st x)
      else parse_loop rest (put (put st '\\') x) := by
  rw [parse_loop.eq_def]
  simp only [hq, hd, Bool.not_true, Bool.and_false, Bool.false_and, Bool.false_eq_true,
    if_false, Bool.not_false, Bool.and_true]
  by_cases hx : x = '"' ∨ x = '\\' ∨ x = '$'
  · have hb : (x == '"' || x == '\\' || x == '$') = true := by
      simpa [Bool.or_eq_true, beq_iff_eq, or_assoc] using hx
    simp [hx, hb]
  · have hb : (x == '"' || x == '\\' || x == '$') = false := by
      rw [Bool.eq_false_iff]
      simpa [Bool.or_eq_true, beq_iff_eq, or_assoc] using hx
    have hx1 : x ≠ '"' := fun h => hx (Or.inl h)
    have hx2 : x ≠ '\\' := fun h => hx (Or.inr (Or.inl h))
    simp only [hb, hx, if_false, Bool.false_eq_true, ↓reduceIte, beq_self_eq_true, Bool.true_and]
    simp
    rw [parse_loop_cons_literal x rest (put st '\\') (by simp [hd]) (by simp [hd])
      (by simp [hx1]) (by simp [hx2])]

/-- C1 on the loop: the state after a double-quoted region `" u \ x v "` read from the
initial state, followed by the end of the line. -/
theorem parse_loop_dq_region (u v : Str) (x : Char)
    (hu : ∀ c ∈ u, c ≠ '"' ∧ c ≠ '\\') (hv : ∀ c ∈ v, c ≠ '"' ∧ c ≠ '\\') :
    (parse_loop ('"' :: (u ++ '\\' :: x :: (v ++ ['"']))) PState.init).argv =
      [if x = '"' ∨ x = '\\' ∨ x = '$' then u ++ x :: v else u ++ '\\' :: x :: v] := by
  rw [parse_loop.eq_def]
  simp only [PState.init, Bool.not_false, Bool.true_and, Bool.and_true]
  have h1 : isspace '"' = false := by decide
  have h2 : ('"' == '\'') = false := by decide
  simp only [h1, h2, Bool.false_eq_true, if_false, beq_self_eq_true, if_true]
  rw [parse_loop_dq_literal u _ _ rfl rfl hu, parse_loop_dq_escape x _ _ (by simp) (by simp)]
  split
  · rw [parse_loop_dq_literal v _ _ (by simp) (by simp) hv, parse_loop.eq_def]
    simp only [foldl_put_in_quote, foldl_put_double_quote, put_in_quote, put_double_quote,
      Bool.not_true, Bool.and_false, Bool.false_and, Bool.false_eq_true, if_false, h2,
      beq_self_eq_true, Bool.not_false, Bool.and_true, if_true]
    rw [parse_loop.eq_def]
    simp only []
    rw [flush_argv_of_ne _ (by simp)]
    simp
  · rw [parse_loop_dq_literal v _ _ (by simp) (by simp) hv, parse_loop.eq_def]
    simp only [foldl_put_in_quote, foldl_put_double_quote, put_in_quote, put_double_quote,
      Bool.not_true, Bool.and_false, Bool.false_and, Bool.false_eq_true, if_false, h2,
      beq_self_eq_true, Bool.not_false, Bool.and_true, if_true]
    rw [parse_loop.eq_def]
    simp only []
    rw [flush_argv_of_ne _ (by simp)]
    simp

/-- C1. Double-quote escape rule: for a line `" u \ x v "` where `u` and `v` hold no
double quote, no backslash (and, being parts of a C string, no NUL) and `x` is any character
of a C string, `parse_input` returns exactly one token: `u x v` when `x` is `"`, the
backslash or `$`, and `u \ x v` otherwise.  White space and single quotes in `u`, `x`, `v`
are kept and do not split the token. -/
theorem parse_input_double_quote_escape (u v : Str) (x : Char)
    (hu : ∀ c ∈ u, c ≠ '"' ∧ c ≠ '\\' ∧ c ≠ NUL)
    (hv : ∀ c ∈ v, c ≠ '"' ∧ c ≠ '\\' ∧ c ≠ NUL) (hx : x ≠ NUL) :
    parse_input ('"' :: (u ++ '\\' :: x :: (v ++ ['"']))) =
      [if x = '"' ∨ x = '\\' ∨ x = '$' then u ++ x :: v else u ++ '\\' :: x :: v] := by
  have hnul : ∀ c ∈ '"' :: (u ++ '\\' :: x :: (v ++ ['"'])), c ≠ NUL := by
    intro c hc
    simp only [List.mem_cons, List.mem_append, List.not_mem_nil, or_false] at hc
    rcases hc with h | h | h | h | h | h
    · subst h; decide
    · exact (hu c h).2.2
    · subst h; decide
    · subst h; exact hx
    · exact (hv c h).2.2
    · subst h; decide
  unfold parse_input
  rw [cstr_eq_self _ hnul]
  exact parse_loop_dq_region u v x (fun c hc => ⟨(hu c hc).1, (hu c hc).2.1⟩)
    (fun c hc => ⟨(hv c hc).1, (hv c hc).2.1⟩)

/-- C1, witness: the line `"a\"b"` gives the single token `a"b`. -/
theorem parse_input_double_quote_escape_witness :
    parse_input "\"a\\\"b\"".toList = ["a\"b".toList] := by
  have h := parse_input_double_quote_escape ['a'] ['b'] '"' (by decide) (by decide) (by decide)
  simpa using h

/-- Every token `parse_input` produces is non-empty and made of characters of the line. -/
theorem parse_loop_tokens (P : Char → Prop) (n : Nat) : ∀ (s : Str) (st : PState),
    s.length ≤ n → (∀ c ∈ s, P c) → (∀ t ∈ st.argv, t ≠ [] ∧ ∀ c ∈ t, P c) →
    (∀ c ∈ st.tok, P c) → ∀ t ∈ (parse_loop s st).argv, t ≠ [] ∧ ∀ c ∈ t, P c := by
  have hflush : ∀ st : PState, (∀ t ∈ st.argv, t ≠ [] ∧ ∀ c ∈ t, P c) → (∀ c ∈ st.tok, P c) →
      ∀ t ∈ (flush st).argv, t ≠ [] ∧ ∀ c ∈ t, P c := by
    intro st ha ht t hmem
    unfold flush at hmem
    split at hmem
    · rename_i hpos
      simp only [List.mem_append, List.mem_singleton] at hmem
      rcases hmem with h | h
      · exact ha t h
      · subst h
        exact ⟨List.length_pos.mp hpos, ht⟩
    · exact ha t hmem
  have hput : ∀ (st : PState) (c : Char), P c → (∀ d ∈ st.tok, P d) →
      ∀ d ∈ (put st c).tok, P d := by
    intro st c hc ht d hd
    simp only [put_tok, List.mem_append, List.mem_singleton] at hd
    rcases hd with h | h
    · exact ht d h
    · subst h; exact hc
  induction n with
  | zero =>
    intro s st hlen _ ha ht
    have : s = [] := List.length_eq_zero.mp (Nat.le_zero.mp hlen)
    subst this
    rw [parse_loop.eq_def]
    exact hflush st ha ht
  | succ n ih =>
    intro s st hlen hs ha ht
    cases s with
    | nil =>
      rw [parse_loop.eq_def]
      exact hflush st ha ht
    | cons c rest =>
      have hc : P c := hs c (List.mem_cons_self _ _)
      have hrest : ∀ d ∈ rest, P d := fun d hd => hs d (List.mem_cons_of_mem _ hd)
      have hl : rest.length ≤ n := by simpa using hlen
      rw [parse_loop.eq_def]
      simp only []
      split
      · exact ih rest _ hl hrest (hflush st ha ht) (by simp)
      · split
        · exact ih rest _ hl hrest ha ht
        · split
          · exact ih rest _ hl hrest ha ht
          · split
            · rename_i hbs
              split
              · exact ha
              · rename_i next rest2
                have hnext : P next := hrest next (List.mem_cons_self _ _)
                have hrest2 : ∀ d ∈ rest2, P d :=
                  fun d hd => hrest d (List.mem_cons_of_mem _ hd)
                have hl2 : rest2.length ≤ n := by
                  simp only [List.length_cons] at hl; omega
                have hcb : c = '\\' := by
                  simp only [Bool.and_eq_true, beq_iff_eq] at hbs
                  exact hbs.1
                split
                · split
                  · exact ih rest2 _ hl2 hrest2 ha (hput st next hnext ht)
                  · exact ih (next :: rest2) _ hl hrest ha (hput st '\\' (hcb ▸ hc) ht)
                · rw [escaped_char]
                  exact ih rest2 _ hl2 hrest2 ha (hput st next hnext ht)
            · exact ih rest _ hl hrest ha (hput st c hc ht)

theorem parse_input_tokens (s : Str) :
    ∀ t ∈ parse_input s, t ≠ [] ∧ ∀ c ∈ t, c ≠ NUL := by
  unfold parse_input
  exact parse_loop_tokens (fun c => c ≠ NUL) _ _ _ (Nat.le_refl _) (cstr_forall s)
    (by simp [PState.init]) (by simp [PState.init])

/-- Outside quotes a plain character is stored as it is. -/
theorem parse_loop_plain (t rest : Str) (st : PState)
    (hq : st.in_quote = false) (hd : st.double_quote = false)
    (ht : ∀ c ∈ t, plain c = true) :
    parse_loop (t ++ rest) st = parse_loop rest (t.foldl put st) := by
  induction t generalizing st with
  | nil => rfl
  | cons c t ih =>
    have hc := ht c (List.mem_cons_self _ _)
    have ht2 : ∀ c ∈ t, plain c = true := fun d hd => ht d (List.mem_cons_of_mem _ hd)
    simp only [plain, Bool.and_eq_true, Bool.not_eq_true', bne_iff_ne, ne_eq] at hc
    obtain ⟨⟨⟨h1, h2⟩, h3⟩, h4⟩ := hc
    rw [List.cons_append, parse_loop_cons_literal c _ st (by simp [h1]) (by simp [h2])
      (by simp [h3]) (by simp [h4]), List.foldl_cons]
    exact ih (put st c) (by simp [hq]) (by simp [hd]) ht2

/-- Tokenizing the join of non-empty plain tokens gives the tokens back. -/
theorem parse_loop_join_spaces (ts : List Str) : ∀ (st : PState),
    st.tok = [] → st.in_quote = false → st.double_quote = false →
    (∀ t ∈ ts, t ≠ [] ∧ ∀ c ∈ t, plain c = true) →
    (parse_loop (join_spaces ts) st).argv = st.argv ++ ts := by
  induction ts with
  | nil =>
    intro st htok _ _ _
    rw [join_spaces, parse_loop.eq_def]
    simp [flush_of_empty st htok]
  | cons t ts ih =>
    intro st htok hq hd hts
    have ht := hts t (List.mem_cons_self _ _)
    cases ts with
    | nil =>
      have h := parse_loop_plain t [] st hq hd ht.2
      rw [List.append_nil] at h
      rw [join_spaces, h, parse_loop.eq_def]
      simp only []
      rw [flush_argv_of_ne _ (by simp [htok, ht.1])]
      simp [htok]
    | cons t2 ts =>
      rw [join_spaces, parse_loop_plain t _ st hq hd ht.2, parse_loop.eq_def]
      simp only [foldl_put_in_quote, foldl_put_double_quote, hq, hd, Bool.not_false,
        Bool.true_and]
      have hsp : isspace ' ' = true := by decide
      simp only [hsp, if_true]
      rw [ih (flush (t.foldl put st)) (by simp) (by simp [hq]) (by simp [hd])
        (fun u hu => hts u (List.mem_cons_of_mem _ hu))]
      rw [flush_argv_of_ne _ (by simp [htok, ht.1])]
      simp [htok]

theorem join_spaces_forall (P : Char → Prop) (hsp : P ' ') (ts : List Str)
    (h : ∀ t ∈ ts, ∀ c ∈ t, P c) : ∀ c ∈ join_spaces ts, P c := by
  induction ts with
  | nil => simp [join_spaces]
  | cons t ts ih =>
    cases ts with
    | nil => simpa [join_spaces] using h
    | cons t2 ts =>
      intro c hc
      rw [join_spaces] at hc
      simp only [List.mem_append, List.mem_cons] at hc
      rcases hc with h1 | h1 | h1
      · exact h t (List.mem_cons_self _ _) c h1
      · subst h1; exact hsp
      · exact ih (fun u hu => h u (List.mem_cons_of_mem _ hu)) c h1

/-- C2 as stated fails: the line `'a b'` has balanced quotes, no pipe and no redirection
operator; its single token `a b`, joined and tokenized again, gives the two tokens `a`, `b`. -/
theorem parse_input_join_counterexample :
    quotes_balanced "'a b'".toList = true ∧ '|' ∉ "'a b'".toList ∧ '>' ∉ "'a b'".toList ∧
    parse_input "'a b'".toList = ["a b".toList] ∧
    parse_input (join_spaces (parse_input "'a b'".toList)) = ["a".toList, "b".toList] ∧
    parse_input (join_spaces (parse_input "'a b'".toList)) ≠ parse_input "'a b'".toList := by
  decide

/-- C2, amended. For every line whose tokens hold no white space, no quote character and no
backslash, the tokens joined with single spaces tokenize to the same sequence. -/
theorem parse_input_join_idempotent (s : Str)
    (h : ∀ t ∈ parse_input s, ∀ c ∈ t, plain c = true) :
    parse_input (join_spaces (parse_input s)) = parse_input s := by
  have hnul : ∀ c ∈ join_spaces (parse_input s), c ≠ NUL :=
    join_spaces_forall (fun c => c ≠ NUL) (by decide) _
      (fun t ht => (parse_input_tokens s t ht).2)
  have hmain := parse_loop_join_spaces (parse_input s) PState.init rfl rfl rfl
    (fun t ht => ⟨(parse_input_tokens s t ht).1, h t ht⟩)
  have hdef : ∀ l : Str, parse_input l = (parse_loop (cstr l) PState.init).argv := fun _ => rfl
  rw [hdef (join_spaces (parse_input s)), cstr_eq_self _ hnul, hmain]
  simp [PState.init]

/-- C2, amended, witness: the line `echo  foo   bar`. -/
theorem parse_input_join_idempotent_witness :
    parse_input (join_spaces (parse_input "echo  foo   bar".toList)) =
      parse_input "echo  foo   bar".toList :=
  parse_input_join_idempotent "echo  foo   bar".toList (by decide)

/-- C3, at the failing input `echo hi\`: the line `echo hi` gives the tokens `echo`, `hi`,
and with a trailing backslash the loop is left before the pending token `hi` is pushed, so
only `echo` is returned. -/
theorem parse_input_dangling_backslash_drops_token :
    parse_input "echo hi".toList = ["echo".toList, "hi".toList] ∧
    parse_input "echo hi\\".toList = ["echo".toList] := by
  decide

/-- While the characters fit, the capacity stays as it is. -/
theorem foldl_put_cap (u : Str) : ∀ (st : PState), st.tok.length + u.length ≤ st.cap →
    (u.foldl put st).cap = st.cap := by
  induction u with
  | nil => intro st _; rfl
  | cons c u ih =>
    intro st h
    simp only [List.length_cons] at h
    have hcap : (put st c).cap = st.cap := by
      simp only [put]
      rw [if_neg (by omega)]
    rw [List.foldl_cons, ih (put st c) (by rw [hcap, put_tok]; simp; omega), hcap]

theorem flush_stores_subset (st : PState) : ∀ p ∈ st.stores, p ∈ (flush st).stores := by
  intro p hp
  unfold flush
  split
  · exact List.mem_append_left _ hp
  · exact hp

/-- A token of plain characters that fills the buffer exactly: the NUL after its last
character is stored at index `cap`. -/
theorem parse_input_stores_full_token (u : Str) (c : Char)
    (hu : ∀ d ∈ u ++ [c], plain d = true ∧ d ≠ NUL) (hlen : u.length = 63) :
    (64, 64) ∈ parse_input_stores (u ++ [c]) := by
  unfold parse_input_stores
  rw [cstr_eq_self _ (fun d hd => (hu d hd).2)]
  have h := parse_loop_plain (u ++ [c]) [] PState.init rfl rfl (fun d hd => (hu d hd).1)
  rw [List.append_nil] at h
  rw [h, parse_loop.eq_def]
  apply flush_stores_subset
  rw [List.foldl_append, List.foldl_cons, List.foldl_nil]
  have hcap : (u.foldl put PState.init).cap = 64 :=
    foldl_put_cap u PState.init (by simp [PState.init, hlen])
  have htok : (u.foldl put PState.init).tok.length = 63 := by
    simp [PState.init, hlen]
  simp only [put, hcap, htok]
  simp

/-- C10, at the failing input of 64 letters `a`: after the 64th character is stored at index
63 the terminating NUL is stored at index 64 while the capacity is still 64, so not every
store is at an index below the capacity. -/
theorem parse_input_store_at_capacity :
    (64, 64) ∈ parse_input_stores (List.replicate 64 'a') ∧
    ¬ (∀ p ∈ parse_input_stores (List.replicate 64 'a'), p.1 < p.2) := by
  have h : (64, 64) ∈ parse_input_stores (List.replicate 64 'a') := by
    have e : List.replicate 64 'a' = List.replicate 63 'a' ++ ['a'] := by
      rw [← List.replicate_succ']
    rw [e]
    apply parse_input_stores_full_token
    · intro d hd
      have hd2 : d = 'a' := by
        rw [← e] at hd
        exact (List.mem_replicate.mp hd).2
      subst hd2
      decide
    · simp
  exact ⟨h, fun hall => Nat.lt_irrefl 64 (hall (64, 64) h)⟩

/-! ## The main loop -/

/-- C4, at the failing inputs `echo foo >> /tmp/out.txt` and `echo foo`: with `>>` the file
receives `foo`, a space and the newline (the test before the separator looks at `cargv[i]`
where it means `cargv[i + 1]`), and without redirection standard output receives `foo`, a
space and the newline (`printf("%s ", ...)`); with `>` the file receives `foo` and the
newline. -/
theorem echo_branch_trailing_space :
    written 3 (run_line Env.permissive std_table "echo foo >> /tmp/out.txt".toList).events
      = "foo \n".toList ∧
    written 1 (run_line Env.permissive std_table "echo foo".toList).events = "foo \n".toList ∧
    written 3 (run_line Env.permissive std_table "echo foo > /tmp/out.txt".toList).events
      = "foo\n".toList := by
  decide

/-- C5, at the failing inputs `exitfoo` and ` echo hi`: the first token of `exitfoo` is
`exitfoo`, not `exit`, and the line is routed to the `exit` branch; the first token of
` echo hi` is `echo` and the line is routed to the external command branch. -/
theorem dispatch_by_line_start :
    (parse_input "exitfoo".toList).head? = some "exitfoo".toList ∧
    (run_line Env.permissive std_table "exitfoo".toList).route = Route.exit ∧
    (parse_input " echo hi".toList).head? = some "echo".toList ∧
    (run_line Env.permissive std_table " echo hi".toList).route = Route.external := by
  decide

/-- C6, at the failing input `echo a > f1 > f2`: the scan opens `f1` as descriptor 3 and
`f2` as descriptor 4, `fd_output` keeps only the second, the single `close` of the iteration
is `close(4)`, and descriptor 3 is still open on `f1` when the next line is read. -/
theorem redirection_descriptor_left_open :
    (run_line Env.permissive std_table "echo a > f1 > f2".toList).events =
      [Event.open_ "f1".toList false 3, Event.open_ "f2".toList false 4,
       Event.write 4 "a".toList, Event.write 4 "\n".toList, Event.close 4] ∧
    fd_get (run_line Env.permissive std_table "echo a > f1 > f2".toList).fds 3 =
      some (Res.file "f1".toList false) ∧
    open_fds (run_line Env.permissive std_table "echo a > f1 > f2".toList).fds = [0, 1, 2, 3] := by
  decide

/-- C7, at the failing input `echo a > f >`: the last token is the operator `>` with no
filename after it; the scan has opened `f` with `O_TRUNC` as descriptor 3 for the first
operator when it meets the second, reports the syntax error and sets `redirect_output = 0`,
so the line's redirection is cancelled while `f` has been emptied and its descriptor is still
held in `fd_output`. -/
theorem scan_opens_before_dangling_operator :
    parse_input "echo a > f >".toList =
      ["echo".toList, "a".toList, ">".toList, "f".toList, ">".toList] ∧
    is_redir_op ">".toList = true ∧
    (redirect_scan Env.permissive std_table (parse_input "echo a > f >".toList)).events =
      [Event.open_ "f".toList false 3,
       Event.write 2 "syntax error: expected filename after >\n".toList] ∧
    (redirect_scan Env.permissive std_table
      (parse_input "echo a > f >".toList)).redirect_output = false ∧
    (redirect_scan Env.permissive std_table (parse_input "echo a > f >".toList)).fd_output = 3 ∧
    fd_get (redirect_scan Env.permissive std_table (parse_input "echo a > f >".toList)).fds 3 =
      some (Res.file "f".toList false) := by
  decide

/-- The scan of a token sequence whose last token is a redirection operator always ends with
the report of the syntax error, whatever the tokens before it. -/
theorem scan_loop_reports_dangling (env : Env) (op : Str) (hop : is_redir_op op = true) :
    ∀ (l : List Str) (sc : Scan), l.getLast? = some op →
    (scan_loop env l sc).events.getLast? =
      some (Event.write 2 (if is_out_op op
        then "syntax error: expected filename after >\n".toList
        else "syntax error: expected filename after 2>\n".toList)) := by
  intro l
  induction l with
  | nil => intro sc h; simp at h
  | cons t rest ih =>
    intro sc hl
    cases rest with
    | nil =>
      have ht : t = op := by simpa using hl
      subst ht
      by_cases ho : is_out_op t = true
      · simp [scan_loop, scan_output, ho]
      · have he : is_err_op t = true := by
          simpa [is_redir_op, ho] using hop
        simp [scan_loop, scan_output, scan_error, ho, he]
    | cons t2 rest2 =>
      have hl2 : (t2 :: rest2).getLast? = some op := by
        simpa [List.getLast?_cons_cons] using hl
      have h1 : (scan_output env t (t2 :: rest2) sc).1 = false := by
        unfold scan_output
        split
        · simp only []
          split <;> rfl
        · rfl
      have h2 : (scan_error env t (t2 :: rest2) (scan_output env t (t2 :: rest2) sc).2).1
          = false := by
        unfold scan_error
        split
        · simp only []
          split <;> rfl
        · rfl
      rw [scan_loop]
      simp only [h1, h2, Bool.false_eq_true, if_false]
      exact ih _ hl2

theorem scan_loop_dangling (env : Env) (op : Str) (hop : is_redir_op op = true)
    (ts : List Str) : ∀ (sc : Scan), (∀ x ∈ ts, is_redir_op x = false) →
    (scan_loop env (ts ++ [op]) sc).events = sc.events ++
        [Event.write 2 (if is_out_op op then "syntax error: expected filename after >\n".toList
          else "syntax error: expected filename after 2>\n".toList)] ∧
      (scan_loop env (ts ++ [op]) sc).fds = sc.fds ∧
      (scan_loop env (ts ++ [op]) sc).fd_output = sc.fd_output ∧
      (scan_loop env (ts ++ [op]) sc).fd_error = sc.fd_error := by
  induction ts with
  | nil =>
    intro sc _
    by_cases ho : is_out_op op = true
    · simp [scan_loop, scan_output, ho]
    · have he : is_err_op op = true := by
        simpa [is_redir_op, ho] using hop
      simp [scan_loop, scan_output, scan_error, ho, he]
  | cons t ts ih =>
    intro sc hts
    have ht := hts t (List.mem_cons_self _ _)
    simp only [is_redir_op, Bool.or_eq_false_iff] at ht
    have hts2 : ∀ x ∈ ts, is_redir_op x = false := fun x hx => hts x (List.mem_cons_of_mem _ hx)
    have hstep : scan_loop env (t :: ts ++ [op]) sc =
        scan_loop env (ts ++ [op]) (if t == "|".toList then { sc with piping := true } else sc) := by
      rw [List.cons_append, scan_loop]
      simp [scan_output, scan_error, ht.1, ht.2]
    rw [hstep]
    by_cases hp : (t == "|".toList) = true
    · rw [if_pos hp]
      exact ih { sc with piping := true } hts2
    · rw [if_neg hp]
      exact ih sc hts2

/-- When the last token is a redirection operator and no other token is one, the error
message is the only call the scan makes: nothing is opened, the descriptor table is
unchanged and both descriptors are still `-1`. -/
theorem scan_dangling_operator_opens_nothing (env : Env) (t : FdTable) (ts : List Str)
    (op : Str) (hop : is_redir_op op = true) (hts : ∀ x ∈ ts, is_redir_op x = false) :
    (redirect_scan env t (ts ++ [op])).events =
        [Event.write 2 (if is_out_op op then "syntax error: expected filename after >\n".toList
          else "syntax error: expected filename after 2>\n".toList)] ∧
      (∀ e ∈ (redirect_scan env t (ts ++ [op])).events, e.is_open = false) ∧
      (redirect_scan env t (ts ++ [op])).fds = t ∧
      (redirect_scan env t (ts ++ [op])).fd_output = -1 ∧
      (redirect_scan env t (ts ++ [op])).fd_error = -1 := by
  have h := scan_loop_dangling env op hop ts (Scan.init t) hts
  unfold redirect_scan
  refine ⟨by simpa [Scan.init] using h.1, ?_, h.2.1, h.2.2.1, h.2.2.2⟩
  intro e he
  rw [h.1] at he
  simp only [Scan.init, List.nil_append, List.mem_singleton] at he
  subst he
  rfl

/-! ## The pipeline builder -/

/-- C8 as stated fails: the line `a||b` splits at its two `|` into the segments `a`, the
empty one and `b`; the claim stops at the empty segment and gives the one stage `a`, while
`strtok` never returns an empty segment and the builder returns the stages `a` and `b`. -/
theorem build_pipeline_skips_empty_segment :
    split_at_pipes "a||b".toList = ["a".toList, [], "b".toList] ∧
    pipeline_as_claimed "a||b".toList = [["a".toList]] ∧
    build_pipeline_from_buffer "a||b".toList = some [["a".toList], ["b".toList]] := by
  decide

/-- The first segment of a line and the remaining ones. -/
theorem split_at_pipes_eq (s : Str) :
    split_at_pipes s = s.takeWhile (fun d => d != '|') ::
      (match s.dropWhile (fun d => d != '|') with
        | [] => []
        | _ :: r => split_at_pipes r) := by
  induction s with
  | nil => rfl
  | cons c cs ih =>
    by_cases hc : c = '|'
    · subst hc
      simp [split_at_pipes]
    · have hb : (c == '|') = false := by simpa using hc
      rw [split_at_pipes]
      simp only [hb, Bool.false_eq_true, if_false]
      rw [ih]
      simp [List.takeWhile_cons, List.dropWhile_cons, hc]

/-- A call of `strtok` returns the first non-empty segment and saves a position from which
the following non-empty segments are read. -/
theorem strtok_segments (s : Str) :
    match strtok s with
    | none => (split_at_pipes s).filter (fun seg => !seg.isEmpty) = []
    | some (tok, save) =>
      (split_at_pipes s).filter (fun seg => !seg.isEmpty) =
        tok :: (split_at_pipes save).filter (fun seg => !seg.isEmpty) ∧
      save.length < s.length := by
  induction s with
  | nil => simp [strtok, split_at_pipes]
  | cons c cs ih =>
    by_cases hc : c = '|'
    · subst hc
      have h1 : strtok ('|' :: cs) = strtok cs := by
        simp [strtok, List.dropWhile_cons]
      have h2 : (split_at_pipes ('|' :: cs)).filter (fun seg => !seg.isEmpty) =
          (split_at_pipes cs).filter (fun seg => !seg.isEmpty) := by
        simp [split_at_pipes]
      rw [h1, h2]
      cases hst : strtok cs with
      | none => rw [hst] at ih; exact ih
      | some p =>
        rw [hst] at ih
        obtain ⟨tok, save⟩ := p
        exact ⟨ih.1, Nat.lt_succ_of_lt ih.2⟩
    · have h1 : strtok (c :: cs) = some ((c :: cs).takeWhile (fun d => d != '|'),
          ((c :: cs).dropWhile (fun d => d != '|')).drop 1) := by
        simp [strtok, List.dropWhile_cons, hc]
      rw [h1]
      simp only []
      constructor
      · rw [split_at_pipes_eq (c :: cs)]
        have hne : (List.takeWhile (fun d => d != '|') (c :: cs)).isEmpty = false := by
          simp [List.takeWhile_cons, hc]
        rw [List.filter_cons]
        simp only [hne, Bool.not_false, if_true]
        congr 1
        cases hd : List.dropWhile (fun d => d != '|') (c :: cs) with
        | nil => simp [split_at_pipes]
        | cons d r => simp
      · have hle := (List.dropWhile_sublist (l := cs) (fun d => d != '|')).length_le
        have hdw : List.dropWhile (fun d => d != '|') (c :: cs) =
            List.dropWhile (fun d => d != '|') cs := by
          simp [List.dropWhile_cons, hc]
        rw [hdw, List.length_drop, List.length_cons]
        omega

/-- The loop of the builder stores the stages of the non-empty segments up to the first one
that gives no stage, as long as there is room. -/
theorem pipeline_loop_eq (fuel : Nat) : ∀ (s : Str) (cmds : List (List Str)),
    s.length < fuel → cmds.length ≤ 4 →
    pipeline_loop fuel (strtok s) cmds = some (cmds ++
      ((((split_at_pipes s).filter (fun seg => !seg.isEmpty)).takeWhile stage_ok).map
        (fun seg => parse_input (trim_spaces seg))).take (4 - cmds.length)) := by
  induction fuel with
  | zero => intro s cmds h; omega
  | succ fuel ih =>
    intro s cmds hlen hcap
    have hseg := strtok_segments s
    cases hst : strtok s with
    | none =>
      rw [hst] at hseg
      simp only [] at hseg
      rw [hseg, pipeline_loop]
      simp
    | some p =>
      obtain ⟨tok, save⟩ := p
      rw [hst] at hseg
      simp only [] at hseg
      rw [hseg.1, pipeline_loop]
      by_cases h1 : trim_spaces tok = []
      · have hok : stage_ok tok = false := by simp [stage_ok, h1]
        simp [h1, List.takeWhile_cons, hok]
      · by_cases h2 : parse_input (trim_spaces tok) = []
        · have hok : stage_ok tok = false := by simp [stage_ok, h2]
          simp [h1, h2, List.takeWhile_cons, hok]
        · have hok : stage_ok tok = true := by
            simp [stage_ok, h1, h2]
          by_cases h3 : cmds.length = 4
          · simp [h1, h2, h3]
          · simp only [h1, h2, h3, if_false]
            rw [ih save (cmds ++ [parse_input (trim_spaces tok)]) (by omega)
              (by simp only [List.length_append, List.length_singleton]; omega)]
            have h4 : 4 - cmds.length = (4 - (cmds ++ [parse_input (trim_spaces tok)]).length) + 1 := by
              simp only [List.length_append, List.length_singleton]; omega
            rw [h4]
            simp [List.takeWhile_cons, hok]

/-- C8, amended. For every raw line, split at every `|` and with the empty segments left
out (`strtok` skips them), `build_pipeline_from_buffer` returns the stages
`parse_input(trim(s))` of the segments before the first one that is empty after trimming or
has no tokens, in order, limited to the first 4, and nothing from that segment on. -/
theorem build_pipeline_from_buffer_eq (line : Str) :
    build_pipeline_from_buffer line = some (pipeline_of_segments line) := by
  unfold build_pipeline_from_buffer pipeline_of_segments
  rw [pipeline_loop_eq _ (cstr line) [] (Nat.lt_succ_self _) (by simp)]
  simp

/-! ## Descriptor tables and the wiring of a pipeline -/

theorem fd_get_set (t : FdTable) (n : Nat) (r : Option Res) (m : Nat) :
    fd_get (fd_set t n r) m = if m = n then r else fd_get t m := by
  induction t generalizing n m with
  | nil =>
    induction n generalizing m with
    | zero =>
      cases m with
      | zero => simp [fd_set, fd_get]
      | succ m => simp [fd_set, fd_get]
    | succ n ihn =>
      cases m with
      | zero => simp [fd_set, fd_get]
      | succ m =>
        have := ihn m
        simp only [fd_get, fd_set, List.getD_cons_succ, Nat.succ.injEq] at this ⊢
        exact this
  | cons x t ih =>
    cases n with
    | zero =>
      cases m with
      | zero => simp [fd_set, fd_get]
      | succ m => simp [fd_set, fd_get]
    | succ n =>
      cases m with
      | zero => simp [fd_set, fd_get]
      | succ m =>
        have := ih n m
        simp only [fd_get, fd_set, List.getD_cons_succ, Nat.succ.injEq] at this ⊢
        exact this

theorem fd_get_lowest_free (t : FdTable) : fd_get t (lowest_free t) = none := by
  induction t with
  | nil => simp [lowest_free, fd_get]
  | cons x t ih =>
    cases x with
    | none => simp [lowest_free, fd_get]
    | some r =>
      simp only [lowest_free, fd_get, List.getD_cons_succ] at ih ⊢
      exact ih

/-- An open descriptor is not the one `open` or `pipe` hands out next. -/
theorem ne_lowest_free (t : FdTable) (m : Nat) (r : Res) (h : fd_get t m = some r) :
    m ≠ lowest_free t := by
  intro he
  rw [he, fd_get_lowest_free] at h
  exact Option.noConfusion h

/-- The two ends `pipe` returns are new, distinct, and every other descriptor is left as it
is. -/
theorem sys_pipe_spec (k : Nat) (t : FdTable) :
    fd_get (sys_pipe k t).2 (sys_pipe k t).1.1 = some (Res.pipeRead k) ∧
    fd_get (sys_pipe k t).2 (sys_pipe k t).1.2 = some (Res.pipeWrite k) ∧
    (sys_pipe k t).1.2 ≠ (sys_pipe k t).1.1 ∧
    fd_get t (sys_pipe k t).1.1 = none ∧ fd_get t (sys_pipe k t).1.2 = none ∧
    ∀ m, m ≠ (sys_pipe k t).1.1 → m ≠ (sys_pipe k t).1.2 →
      fd_get (sys_pipe k t).2 m = fd_get t m := by
  have hr : fd_get (fd_set t (lowest_free t) (some (Res.pipeRead k))) (lowest_free t) =
      some (Res.pipeRead k) := by
    rw [fd_get_set]; simp
  have hwr := ne_lowest_free _ _ _ hr
  have hw := fd_get_lowest_free (fd_set t (lowest_free t) (some (Res.pipeRead k)))
  refine ⟨?_, ?_, ?_, ?_, ?_, ?_⟩
  · simp only [sys_pipe]
    rw [fd_get_set, if_neg hwr, hr]
  · simp only [sys_pipe]
    rw [fd_get_set]; simp
  · simp only [sys_pipe]
    exact fun h => hwr h.symm
  · simp only [sys_pipe]
    exact fd_get_lowest_free t
  · simp only [sys_pipe]
    rw [fd_get_set, if_neg (Ne.symm hwr)] at hw
    exact hw
  · intro m h1 h2
    simp only [sys_pipe] at h1 h2 ⊢
    rw [fd_get_set, if_neg h2, fd_get_set, if_neg h1]

/-- The descriptors of a child after lines 325-341: 0 and 1 are rewired, `prev_fd` and the
two ends of the new pipe are closed, the others are as they were at the `fork`. -/
theorem child_setup_spec (t : FdTable) (prev : Option Nat) (more : Bool) (r w : Nat)
    (a b x y : Res) (h0 : fd_get t 0 = some a) (h1 : fd_get t 1 = some b)
    (hprev : ∀ q, prev = some q → q ≠ 0 ∧ q ≠ 1 ∧ q ≠ r ∧ fd_get t q = some x)
    (hmore : more = true → r ≠ 0 ∧ r ≠ 1 ∧ w ≠ 0 ∧ w ≠ 1 ∧ w ≠ r ∧ fd_get t w = some y) :
    ∃ ct, child_setup t prev more (r, w) = some ct ∧
      fd_get ct 0 = some (match prev with | some _ => x | none => a) ∧
      fd_get ct 1 = some (if more then y else b) ∧
      ∀ fd, fd ≠ 0 → fd ≠ 1 → fd_get ct fd =
        if prev = some fd ∨ (more = true ∧ (fd = r ∨ fd = w)) then none else fd_get t fd := by
  cases prev with
  | none =>
    cases more with
    | false =>
      exact ⟨t, by simp [child_setup, close_prev], by simpa using h0, by simpa using h1,
        by intro fd _ _; simp⟩
    | true =>
      obtain ⟨hr0, hr1, hw0, hw1, hwr, hw⟩ := hmore rfl
      have hg : fd_get (fd_set t r none) w = some y := by
        rw [fd_get_set, if_neg hwr, hw]
      refine ⟨fd_set (fd_set (fd_set t r none) 1 (some y)) w none, ?_, ?_, ?_, ?_⟩
      · simp [child_setup, close_prev, sys_dup2, hg]
      · simp only [fd_get_set]
        simp [Ne.symm hw0, Ne.symm hr0, h0]
      · simp only [fd_get_set]
        simp [Ne.symm hw1]
      · intro fd hf0 hf1
        simp only [fd_get_set]
        by_cases e1 : fd = w
        · simp [e1]
        · by_cases e2 : fd = r
          · subst e2
            simp [e1, hf1]
          · simp [e1, e2, hf1]
  | some q =>
    obtain ⟨hq0, hq1, hqr, hq⟩ := hprev q rfl
    cases more with
    | false =>
      refine ⟨fd_set (fd_set t 0 (some x)) q none, ?_, ?_, ?_, ?_⟩
      · simp [child_setup, close_prev, sys_dup2, hq]
      · simp only [fd_get_set]
        simp [Ne.symm hq0]
      · simp only [fd_get_set]
        simp [Ne.symm hq1, h1]
      · intro fd hf0 hf1
        simp only [fd_get_set]
        by_cases e1 : fd = q
        · simp [e1]
        · have e1b : ¬ q = fd := fun h => e1 h.symm
          simp [e1, e1b, hf0]
    | true =>
      obtain ⟨hr0, hr1, hw0, hw1, hwr, hw⟩ := hmore rfl
      have hg : fd_get (fd_set (fd_set t 0 (some x)) r none) w = some y := by
        simp only [fd_get_set]
        simp [hwr, hw0, hw]
      refine ⟨fd_set (fd_set (fd_set (fd_set (fd_set t 0 (some x)) r none) 1 (some y)) q none)
        w none, ?_, ?_, ?_, ?_⟩
      · simp [child_setup, close_prev, sys_dup2, hq, hg]
      · simp only [fd_get_set]
        simp [Ne.symm hw0, Ne.symm hq0, Ne.symm hr0]
      · simp only [fd_get_set]
        simp [Ne.symm hw1, Ne.symm hq1]
      · intro fd hf0 hf1
        simp only [fd_get_set]
        by_cases e1 : fd = w
        · simp [e1]
        · by_cases e2 : fd = q
          · subst e2
            simp [e1]
          · have e2b : ¬ q = fd := fun h => e2 h.symm
            by_cases e3 : fd = r
            · subst e3
              simp [e1, e2, e2b, hf0, hf1]
            · simp [e1, e2, e2b, e3, hf0, hf1]

theorem getElem?_concat_of_length {α : Type} (cs : List α) (x : α) (j : Nat)
    (h : cs.length = j) : (cs ++ [x])[j]? = some x := by
  subst h
  simp

/-- The children forked in earlier iterations stay where they are in the list. -/
theorem exec_loop_children_kept (n_cmds : Nat) : ∀ (rest : List (List Str)) (i : Nat)
    (prev : Option Nat) (t : FdTable) (cs : List Child) (j : Nat), j < cs.length →
    (exec_loop n_cmds rest i prev t cs).2[j]? = cs[j]? := by
  intro rest
  induction rest with
  | nil => intro i prev t cs j _; rfl
  | cons argv rest ih =>
    intro i prev t cs j hj
    rw [exec_loop.eq_def]
    simp only []
    split
    · rw [ih _ _ _ _ j (by simp; omega), List.getElem?_append_left hj]
    · rw [ih _ _ _ _ j (by simp; omega), List.getElem?_append_left hj]

/-- The invariant of the loop of `execute_pipe_cmds`: at the start of iteration `i` the table
of the interpreter is the one it had before the loop, `t0`, except that `prev_fd`, when
set, is the read end of the pipe of iteration `i - 1`. -/
theorem exec_loop_wiring (n_cmds : Nat) (t0 : FdTable) (a b : Res)
    (h0 : fd_get t0 0 = some a) (h1 : fd_get t0 1 = some b) :
    ∀ (rest : List (List Str)) (i : Nat) (prev : Option Nat) (t : FdTable) (cs : List Child),
    i + rest.length = n_cmds → cs.length = i →
    (∀ fd, prev ≠ some fd → fd_get t fd = fd_get t0 fd) →
    (prev = none → i = 0) →
    (∀ q, prev = some q →
      0 < i ∧ fd_get t0 q = none ∧ fd_get t q = some (Res.pipeRead (i - 1))) →
    ∀ j, i ≤ j → j < n_cmds →
      ∃ c ct, (exec_loop n_cmds rest i prev t cs).2[j]? = some c ∧ c.stage = j ∧
        rest[j - i]? = some c.argv ∧ c.fds = some ct ∧
        fd_get ct 0 = some (if j = 0 then a else Res.pipeRead (j - 1)) ∧
        fd_get ct 1 = some (if j + 1 = n_cmds then b else Res.pipeWrite j) ∧
        ∀ fd, 2 ≤ fd → fd_get ct fd = fd_get t0 fd := by
  intro rest
  induction rest with
  | nil =>
    intro i prev t cs hn _ _ _ _ j hij hj
    simp only [List.length_nil, Nat.add_zero] at hn
    omega
  | cons argv rest ih =>
    intro i prev t cs hn hcs hinv hnone hsome j hij hj
    simp only [List.length_cons] at hn
    -- descriptors 0 and 1 of the interpreter, and `prev_fd`
    have hq0 : prev ≠ some 0 := by
      intro h
      have := (hsome 0 h).2.1
      rw [h0] at this
      exact Option.noConfusion this
    have hq1 : prev ≠ some 1 := by
      intro h
      have := (hsome 1 h).2.1
      rw [h1] at this
      exact Option.noConfusion this
    have ht0 : fd_get t 0 = some a := by rw [hinv 0 hq0, h0]
    have ht1 : fd_get t 1 = some b := by rw [hinv 1 hq1, h1]
    obtain ⟨hpr, hpw, hwr, hrfree, hwfree, hsame⟩ := sys_pipe_spec i t
    have hopen : ∀ m x, fd_get t m = some x →
        m ≠ (sys_pipe i t).1.1 ∧ m ≠ (sys_pipe i t).1.2 ∧
        fd_get (sys_pipe i t).2 m = some x := by
      intro m x hm
      have e1 : m ≠ (sys_pipe i t).1.1 := by
        intro e; rw [e, hrfree] at hm; exact Option.noConfusion hm
      have e2 : m ≠ (sys_pipe i t).1.2 := by
        intro e; rw [e, hwfree] at hm; exact Option.noConfusion hm
      exact ⟨e1, e2, by rw [hsame m e1 e2, hm]⟩
    have k0 := hopen 0 a ht0
    have k1 := hopen 1 b ht1
    have hrt0 : fd_get t0 (sys_pipe i t).1.1 = none := by
      rw [← hinv _ (fun h => (hopen _ _ (hsome _ h).2.2).1 rfl)]
      exact hrfree
    have hwt0 : fd_get t0 (sys_pipe i t).1.2 = none := by
      rw [← hinv _ (fun h => (hopen _ _ (hsome _ h).2.2).2.1 rfl)]
      exact hwfree
    by_cases hmore : i + 1 < n_cmds
    · -- a pipe is created in this iteration
      have hstep : exec_loop n_cmds (argv :: rest) i prev t cs =
          exec_loop n_cmds rest (i + 1) (some (sys_pipe i t).1.1)
            (fd_set (close_prev (sys_pipe i t).2 prev) (sys_pipe i t).1.2 none)
            (cs ++ [{ stage := i, argv := argv, builtin := is_builtin (argv.headD []),
                      fds := child_setup (sys_pipe i t).2 prev true (sys_pipe i t).1 }]) := by
        rw [exec_loop.eq_def]
        simp [hmore]
      rw [hstep]
      by_cases hji : j = i
      · subst hji
        rw [exec_loop_children_kept _ _ _ _ _ _ j (by simp [hcs])]
        have hc := child_setup_spec (sys_pipe j t).2 prev true (sys_pipe j t).1.1
          (sys_pipe j t).1.2 a b (Res.pipeRead (j - 1)) (Res.pipeWrite j) k0.2.2 k1.2.2
          (by
            intro q hq
            obtain ⟨_, _, hqg⟩ := hsome q hq
            have kq := hopen q _ hqg
            exact ⟨fun e => hq0 (e ▸ hq), fun e => hq1 (e ▸ hq), kq.1, kq.2.2⟩)
          (by
            intro _
            exact ⟨Ne.symm k0.1, Ne.symm k1.1, Ne.symm k0.2.1, Ne.symm k1.2.1, hwr, hpw⟩)
        obtain ⟨ct, hct, hc0, hc1, hcrest⟩ := hc
        refine ⟨_, ct, getElem?_concat_of_length _ _ _ hcs, rfl, by simp, hct, ?_, ?_, ?_⟩
        · rw [hc0]
          cases prev with
          | none => simp [hnone rfl]
          | some q =>
            have := (hsome q rfl).1
            simp only []
            rw [if_neg (by omega)]
        · rw [hc1]
          simp only [if_true]
          rw [if_neg (by omega)]
        · intro fd hfd
          rw [hcrest fd (by omega) (by omega)]
          by_cases e1 : prev = some fd
          · simp only [e1, true_or, if_true]
            exact ((hsome fd e1).2.1).symm
          · by_cases e2 : fd = (sys_pipe j t).1.1
            · simp only [e2, true_or, and_self, or_true, if_true]
              exact hrt0.symm
            · by_cases e3 : fd = (sys_pipe j t).1.2
              · simp only [e3, or_true, and_self, if_true]
                exact hwt0.symm
              · simp only [e1, e2, e3, or_self, and_false, if_false]
                rw [hsame fd e2 e3, hinv fd e1]
      · have hrec := ih (i + 1) (some (sys_pipe i t).1.1)
          (fd_set (close_prev (sys_pipe i t).2 prev) (sys_pipe i t).1.2 none)
          (cs ++ [{ stage := i, argv := argv, builtin := is_builtin (argv.headD []),
                    fds := child_setup (sys_pipe i t).2 prev true (sys_pipe i t).1 }])
          (by omega) (by simp [hcs])
          (by
            intro fd hfd
            have e2 : fd ≠ (sys_pipe i t).1.1 := fun e => hfd (by rw [e])
            rw [fd_get_set]
            by_cases e3 : fd = (sys_pipe i t).1.2
            · rw [if_pos e3, e3]
              exact hwt0.symm
            · rw [if_neg e3]
              cases prev with
              | none =>
                simp only [close_prev]
                rw [hsame fd e2 e3, hinv fd (fun h => Option.noConfusion h)]
              | some q =>
                simp only [close_prev]
                rw [fd_get_set]
                by_cases e1 : fd = q
                · rw [if_pos e1, e1]
                  exact ((hsome q rfl).2.1).symm
                · rw [if_neg e1, hsame fd e2 e3,
                    hinv fd (fun h => e1 (Option.some.inj h).symm)])
          (by intro h; exact Option.noConfusion h)
          (by
            intro q hq
            have hq2 : (sys_pipe i t).1.1 = q := Option.some.inj hq
            subst hq2
            refine ⟨Nat.succ_pos _, hrt0, ?_⟩
            rw [fd_get_set, if_neg (Ne.symm hwr)]
            simp only [Nat.add_sub_cancel]
            cases prev with
            | none => exact hpr
            | some q =>
              simp only [close_prev]
              have kq := hopen q _ (hsome q rfl).2.2
              rw [fd_get_set, if_neg (Ne.symm kq.1)]
              exact hpr)
          j (by omega) hj
        obtain ⟨c, ct, e1, e2, e3, e4, e5, e6, e7⟩ := hrec
        refine ⟨c, ct, e1, e2, ?_, e4, e5, e6, e7⟩
        have hsub : j - i = (j - (i + 1)) + 1 := by omega
        rw [hsub, List.getElem?_cons_succ]
        exact e3
    · -- the last stage
      have hrest : rest = [] := by
        apply List.length_eq_zero.mp
        omega
      subst hrest
      have hji : j = i := by omega
      subst hji
      have hstep : (exec_loop n_cmds [argv] j prev t cs).2 =
          cs ++ [{ stage := j, argv := argv, builtin := is_builtin (argv.headD []),
                   fds := child_setup t prev false (0, 0) }] := by
        rw [exec_loop.eq_def]
        simp [hmore, exec_loop]
      rw [hstep]
      have hc := child_setup_spec t prev false 0 0 a b (Res.pipeRead (j - 1)) (Res.pipeWrite j)
        ht0 ht1
        (by
          intro q hq
          obtain ⟨_, _, hqg⟩ := hsome q hq
          exact ⟨fun e => hq0 (e ▸ hq), fun e => hq1 (e ▸ hq), fun e => hq0 (e ▸ hq), hqg⟩)
        (by intro h; exact Bool.noConfusion h)
      obtain ⟨ct, hct, hc0, hc1, hcrest⟩ := hc
      refine ⟨_, ct, getElem?_concat_of_length _ _ _ hcs, rfl, by simp, hct, ?_, ?_, ?_⟩
      · rw [hc0]
        cases prev with
        | none => simp [hnone rfl]
        | some q =>
          have := (hsome q rfl).1
          simp only []
          rw [if_neg (by omega)]
      · rw [hc1]
        simp only [Bool.false_eq_true, if_false]
        rw [if_pos (by simp only [List.length_nil] at hn; omega)]
      · intro fd hfd
        rw [hcrest fd (by omega) (by omega)]
        by_cases e1 : prev = some fd
        · simp only [e1, true_or, if_true]
          exact ((hsome fd e1).2.1).symm
        · simp only [e1, Bool.false_eq_true, false_and, or_self, if_false]
          exact hinv fd e1

/-- C9. Pipeline descriptor wiring: for a pipeline of `N ≥ 1` stages run by an interpreter
whose descriptors 0 and 1 are open, the child of stage `i` starts its program with, as
descriptor 0, the read end of the pipe created in iteration `i - 1` (the inherited standard
input when `i = 0`) and, as descriptor 1, the write end of the pipe created in iteration `i`
(the inherited standard output when `i = N - 1`); so stage `i + 1` reads the pipe stage `i`
writes.  Its other descriptors are those the interpreter had before the pipeline: no other
end of a pipe is left open in a child. -/
theorem execute_pipe_cmds_wiring (t : FdTable) (cmds : List (List Str)) (a b : Res)
    (h0 : fd_get t 0 = some a) (h1 : fd_get t 1 = some b) (i : Nat) (hi : i < cmds.length) :
    ∃ c ct, (execute_pipe_cmds t cmds).2[i]? = some c ∧ c.stage = i ∧
      cmds[i]? = some c.argv ∧ c.fds = some ct ∧
      fd_get ct 0 = some (if i = 0 then a else Res.pipeRead (i - 1)) ∧
      fd_get ct 1 = some (if i + 1 = cmds.length then b else Res.pipeWrite i) ∧
      ∀ fd, 2 ≤ fd → fd_get ct fd = fd_get t fd := by
  have h := exec_loop_wiring cmds.length t a b h0 h1 cmds 0 none t [] (by simp) rfl
    (fun _ _ => rfl) (fun _ => rfl) (fun q hq => Option.noConfusion hq) i (Nat.zero_le _) hi
  simpa [execute_pipe_cmds] using h

/-- C9, witness: the three stages `printf x`, `sort`, `wc` run from the standard table;
the second child reads pipe 0 and writes pipe 1. -/
theorem execute_pipe_cmds_wiring_witness :
    ∃ c ct, (execute_pipe_cmds std_table
        [["printf".toList, "x".toList], ["sort".toList], ["wc".toList]]).2[1]? = some c ∧
      c.stage = 1 ∧
      [["printf".toList, "x".toList], ["sort".toList], ["wc".toList]][1]? = some c.argv ∧
      c.fds = some ct ∧
      fd_get ct 0 = some (if 1 = 0 then Res.inherited 0 else Res.pipeRead (1 - 1)) ∧
      fd_get ct 1 = some (if 1 + 1 =
          [["printf".toList, "x".toList], ["sort".toList], ["wc".toList]].length
        then Res.inherited 1 else Res.pipeWrite 1) ∧
      ∀ fd, 2 ≤ fd → fd_get ct fd = fd_get std_table fd :=
  execute_pipe_cmds_wiring std_table
    [["printf".toList, "x".toList], ["sort".toList], ["wc".toList]]
    (Res.inherited 0) (Res.inherited 1) (by decide) (by decide) 1 (by decide)

end MyShell
